import Mathlib

/-!
Shallow embedding of the pose-tracking core of `startPoseVideoDetection`
(src/src/App.tsx): per-frame track expiry, greedy nearest-center
association, fixed-cadence wrist sampling, and the working/idle motion
classifier.  Numbers are modelled as exact reals; the JS `-Infinity`
sentinel used for a fresh track's `lastSampleTime` is modelled as `none`.
Theorems at the end check the natural-language specification against this
embedding.
-/

namespace Pose

/-- A 2D point in canvas space. -/
abbrev Point := ℝ × ℝ

/-- `Math.hypot` on two arguments. -/
noncomputable def hypot (x y : ℝ) : ℝ := Real.sqrt (x ^ 2 + y ^ 2)

theorem hypot_nonneg (x y : ℝ) : 0 ≤ hypot x y := Real.sqrt_nonneg _

/-- An axis-aligned box, `{x1, y1, x2, y2}` in the source. -/
structure Box where
  x1 : ℝ
  y1 : ℝ
  x2 : ℝ
  y2 : ℝ

/-- One per-frame detection (type `Det` in the source); `lw`/`rw` are the
left/right wrist points, present only when the keypoint confidence passed
the threshold during decoding. -/
structure Det where
  box : Box
  center : Point
  score : ℝ
  lw : Option Point := none
  rw : Option Point := none

/-- The behaviour label of a track. -/
inductive Status where
  | working
  | idle
  deriving DecidableEq

/-- A recorded wrist sample (type `TrackSample` in the source). -/
structure TrackSample where
  t : ℝ
  lw : Option Point := none
  rw : Option Point := none

/-- A persistent track (type `Track` in the source).  `lastSampleTime` is
`none` while the JS value is `-Infinity` (i.e. before the first sample). -/
structure Track where
  id : ℕ
  lastBox : Box
  lastCenter : Point
  lastUpdateTime : ℝ
  lastSampleTime : Option ℝ
  samples : List TrackSample
  status : Status

/-- `SAMPLE_INTERVAL_S` from the source. -/
noncomputable def SAMPLE_INTERVAL_S : ℝ := 0.5

/-- `WINDOW_S` from the source. -/
noncomputable def WINDOW_S : ℝ := 3.0

/-- The guard `nowT - tr.lastSampleTime >= SAMPLE_INTERVAL_S`; with
`lastSampleTime = -Infinity` (here `none`) it is always true. -/
def sampleDue : Option ℝ → ℝ → Prop
  | none, _ => True
  | some last, now => SAMPLE_INTERVAL_S ≤ now - last

noncomputable instance instSampleDueDec (lst : Option ℝ) (now : ℝ) :
    Decidable (sampleDue lst now) :=
  match lst with
  | none => isTrue trivial
  | some last => inferInstanceAs (Decidable (SAMPLE_INTERVAL_S ≤ now - last))

/-- The sample literal built in the sampling branch: `{ t: nowT }` plus the
detection's wrists when present. -/
def mkSample (d : Det) (now : ℝ) : TrackSample := { t := now, lw := d.lw, rw := d.rw }

/-- The `addDist` helper of the classifier: 0 when either wrist is absent,
otherwise the Euclidean displacement. -/
noncomputable def addDist : Option Point → Option Point → ℝ
  | some p1, some p2 => hypot (p2.1 - p1.1) (p2.2 - p1.2)
  | _, _ => 0

/-- One iteration of the classifier's accumulation loop over a consecutive
sample pair: adds `dL`/`dR` to the total when positive and counts the pair
when either side contributed. -/
noncomputable def motionStep (acc : ℝ × ℕ) (p : TrackSample × TrackSample) : ℝ × ℕ :=
  let dL := addDist p.1.lw p.2.lw
  let dR := addDist p.1.rw p.2.rw
  (acc.1 + (if 0 < dL then dL else 0) + (if 0 < dR then dR else 0),
   acc.2 + (if 0 < dL ∨ 0 < dR then 1 else 0))

/-- The consecutive pairs `(samples[k-1], samples[k])` visited by the
classifier's `for` loop. -/
def consecPairs (l : List TrackSample) : List (TrackSample × TrackSample) := l.zip l.tail

/-- The motion classifier: the body of the `if (tr.samples.length >= 2)`
block of the source, producing the new `tr.status`. -/
noncomputable def classify (samples : List TrackSample) (box : Box) : Status :=
  if 2 ≤ samples.length then
    let tc := (consecPairs samples).foldl motionStep (0, 0)
    let boxH := max 1 (box.y2 - box.y1)
    let normMotion := if 0 < tc.2 then (tc.1 / (tc.2 : ℝ)) / boxH else 0
    if (0.1 : ℝ) ≤ normMotion then Status.working else Status.idle
  else Status.idle

/-- The per-matched-track body of the update loop: overwrite geometry and
update time, take a sample (and evict outside the window) when due, then
recompute the status from the current samples. -/
noncomputable def updateTrack (tr : Track) (d : Det) (now : ℝ) : Track :=
  let tr1 : Track := { tr with lastBox := d.box, lastCenter := d.center, lastUpdateTime := now }
  let tr2 : Track :=
    if sampleDue tr1.lastSampleTime now then
      { tr1 with
        samples := (tr1.samples ++ [mkSample d now]).filter fun s => decide (now - WINDOW_S ≤ s.t),
        lastSampleTime := some now }
    else tr1
  { tr2 with status := classify tr2.samples tr2.lastBox }

/-- The track literal created for an unassigned detection. -/
def newTrack (id : ℕ) (d : Det) (now : ℝ) : Track :=
  { id := id, lastBox := d.box, lastCenter := d.center, lastUpdateTime := now,
    lastSampleTime := none, samples := [], status := Status.idle }

/-- The expiry pass: delete every track with `nowT - lastUpdateTime > 2.0`. -/
noncomputable def expire (reg : List Track) (now : ℝ) : List Track :=
  reg.filter fun tr => !decide (2.0 < now - tr.lastUpdateTime)

/-- Center distance from a detection to a track's last center. -/
noncomputable def distTo (d : Det) (tr : Track) : ℝ :=
  hypot (d.center.1 - tr.lastCenter.1) (d.center.2 - tr.lastCenter.2)

/-- The adaptive matching gate `max(0.5 * hypot(bw, bh), 80)`. -/
noncomputable def gate (tr : Track) : ℝ :=
  max (0.5 * hypot (tr.lastBox.x2 - tr.lastBox.x1) (tr.lastBox.y2 - tr.lastBox.y1)) 80

/-- One iteration of the candidate loop of the greedy matcher, carrying the
current best `(bestTrackId, bestDist)`; `none` models the initial
`(-1, Infinity)` state. -/
noncomputable def matchStep (d : Det) (now : ℝ) (used : List ℕ)
    (best : Option (ℕ × ℝ)) (tr : Track) : Option (ℕ × ℝ) :=
  if tr.id ∈ used then best
  else if 1.5 < now - tr.lastUpdateTime then best
  else
    let dist := distTo d tr
    match best with
    | none => if dist < gate tr then some (tr.id, dist) else none
    | some (bid, bd) => if dist < gate tr ∧ dist < bd then some (tr.id, dist) else some (bid, bd)

/-- The whole candidate loop for one detection. -/
noncomputable def matchOne (d : Det) (reg : List Track) (now : ℝ) (used : List ℕ) : Option ℕ :=
  (reg.foldl (matchStep d now used) none).map Prod.fst

/-- The matching loop over all detections in decode order, threading the
claimed-track set `usedTrackIds`. -/
noncomputable def greedyAssign (reg : List Track) (now : ℝ) :
    List Det → List ℕ → List (Option ℕ)
  | [], _ => []
  | d :: ds, used =>
    match matchOne d reg now used with
    | some id => some id :: greedyAssign reg now ds (id :: used)
    | none => none :: greedyAssign reg now ds used

/-- The creation loop: each unassigned detection spawns a fresh track with
the next id.  Returns the created tracks (in creation order), the final
`nextTrackId`, and the completed per-detection id assignment. -/
def createAll (now : ℝ) : List (Det × Option ℕ) → ℕ → List Track × ℕ × List ℕ
  | [], n => ([], n, [])
  | (_, some id) :: rest, n =>
    let r := createAll now rest n
    (r.1, r.2.1, id :: r.2.2)
  | (d, none) :: rest, n =>
    let r := createAll now rest (n + 1)
    (newTrack n d now :: r.1, r.2.1, n :: r.2.2)

/-- The update loop over all detections: each assigned track is rewritten
in place by `updateTrack`. -/
noncomputable def updateAll (now : ℝ) (reg : List Track) (work : List (Det × ℕ)) : List Track :=
  work.foldl (fun acc pr => acc.map fun tr => if tr.id = pr.2 then updateTrack tr pr.1 now else tr) reg

/-- The registry, id counter and per-detection assignment resulting from
one processing pass. -/
structure FrameOut where
  registry : List Track
  nextId : ℕ
  ids : List ℕ

/-- One full processing pass over the registry for one frame's decoded
detections: expiry, greedy matching, creation of new tracks, then the
update/sample/classify loop. -/
noncomputable def processFrame (reg : List Track) (nextId : ℕ) (dets : List Det) (now : ℝ) :
    FrameOut :=
  let reg1 := expire reg now
  let asg := greedyAssign reg1 now dets []
  let created := createAll now (dets.zip asg) nextId
  let reg2 := reg1 ++ created.1
  let reg3 := updateAll now reg2 (dets.zip created.2.2)
  { registry := reg3, nextId := created.2.1, ids := created.2.2 }

/-- The per-detection status list built after the update loop (`statuses`
in the source): the assigned track's status, `idle` when the id is not in
the registry. -/
noncomputable def frameStatuses (out : FrameOut) : List Status :=
  out.ids.map fun id =>
    match out.registry.find? (fun tr => tr.id == id) with
    | some tr => tr.status
    | none => Status.idle

/-- The aggregate count emitted through `onFrameCount`: detections with a
strictly positive score. -/
noncomputable def frameCount (dets : List Det) : ℕ :=
  dets.countP fun d => decide (0 < d.score)

/-- The working/idle pair emitted through `onFrameStatusCounts`. -/
noncomputable def frameStatusCounts (out : FrameOut) : ℕ × ℕ :=
  ((frameStatuses out).countP fun s => decide (s = Status.working),
   (frameStatuses out).countP fun s => decide (s ≠ Status.working))

/-- The points of the processing pass at which the source can actually
throw, in execution order: the TFJS inference/decode/NMS tensor operations
run before any registry mutation; canvas rendering and the two reporting
callbacks run after the registry update loop.  The expiry, matching,
creation and update sections are plain arithmetic and do not throw. -/
inductive FaultPoint where
  | inference
  | decode
  | nms
  | render
  | emitCount
  | emitStatus
  deriving DecidableEq

/-- The observable outcome of one scheduling tick that found a new
timestamp: the registry and id counter afterwards, what was emitted, and
whether the loop rescheduled itself. -/
structure PassResult where
  registry : List Track
  nextId : ℕ
  emittedCount : Option ℕ
  emittedStatus : Option (ℕ × ℕ)
  reschedules : Bool

/-- One scheduling tick with an optional injected fault: the `try` block
executes its stages in order until the faulting one, the `catch` only
logs, and `requestAnimationFrame` is re-armed after the `try`/`catch` in
every case. -/
noncomputable def runPass (fault : Option FaultPoint) (reg : List Track) (nextId : ℕ)
    (dets : List Det) (now : ℝ) : PassResult :=
  if fault = some FaultPoint.inference ∨ fault = some FaultPoint.decode ∨
      fault = some FaultPoint.nms then
    { registry := reg, nextId := nextId, emittedCount := none, emittedStatus := none,
      reschedules := true }
  else
    let out := processFrame reg nextId dets now
    if fault = some FaultPoint.render ∨ fault = some FaultPoint.emitCount then
      { registry := out.registry, nextId := out.nextId, emittedCount := none,
        emittedStatus := none, reschedules := true }
    else if fault = some FaultPoint.emitStatus then
      { registry := out.registry, nextId := out.nextId,
        emittedCount := some (frameCount dets), emittedStatus := none, reschedules := true }
    else
      { registry := out.registry, nextId := out.nextId,
        emittedCount := some (frameCount dets),
        emittedStatus := some (frameStatusCounts out), reschedules := true }

/-- A sequence of per-track updates, as the sampler sees them: one
`updateTrack` per frame in which the track was matched. -/
noncomputable def applyUpdates (tr : Track) (updates : List (ℝ × Det)) : Track :=
  updates.foldl (fun t u => updateTrack t u.2 u.1) tr

section SpecSide

/-!  Definitions in this section follow the specification's words, to be
compared with the code-derived definitions above. -/

/-- Modelled from the spec: the Euclidean displacement of one wrist across
a sample pair, defined only when both samples of the pair have that
wrist. -/
noncomputable def specDisp (a b : Option Point) : Option ℝ :=
  match a, b with
  | some p, some q => some (hypot (q.1 - p.1) (q.2 - p.2))
  | _, _ => none

/-- Modelled from the spec: the contribution of one side to
`totalDistance` — the displacement when it exists and is non-zero. -/
noncomputable def specSideContr (o : Option ℝ) : ℝ :=
  match o with
  | some v => if v ≠ 0 then v else 0
  | none => 0

/-- Modelled from the spec: whether one side of a pair contributes. -/
def specSideActive (o : Option ℝ) : Prop :=
  match o with
  | some v => v ≠ 0
  | none => False

noncomputable instance instSpecSideActiveDec (o : Option ℝ) : Decidable (specSideActive o) :=
  match o with
  | some v => inferInstanceAs (Decidable (v ≠ 0))
  | none => isFalse not_false

/-- Modelled from the spec: `totalDistance`, the sum over consecutive
sample pairs of the non-zero left- and right-wrist displacements. -/
noncomputable def specTotalDistance (samples : List TrackSample) : ℝ :=
  ((consecPairs samples).map fun p =>
    specSideContr (specDisp p.1.lw p.2.lw) + specSideContr (specDisp p.1.rw p.2.rw)).sum

/-- Modelled from the spec: `countPairs`, the number of pairs contributing
at least one side. -/
noncomputable def specCountPairs (samples : List TrackSample) : ℕ :=
  (consecPairs samples).countP fun p =>
    decide (specSideActive (specDisp p.1.lw p.2.lw) ∨ specSideActive (specDisp p.1.rw p.2.rw))

/-- Modelled from the spec: the behaviour classifier — `idle` on fewer
than 2 samples, otherwise `working` iff
`(countPairs > 0 ? (totalDistance / countPairs) / boxHeight : 0) ≥ 0.1`
with `boxHeight = max(1, lastBox.y2 - lastBox.y1)`. -/
noncomputable def specClassify (samples : List TrackSample) (box : Box) : Status :=
  if samples.length < 2 then Status.idle
  else
    let boxHeight := max 1 (box.y2 - box.y1)
    let normalizedMotion :=
      if 0 < specCountPairs samples then
        (specTotalDistance samples / (specCountPairs samples : ℝ)) / boxHeight
      else 0
    if (0.1 : ℝ) ≤ normalizedMotion then Status.working else Status.idle

/-- Modelled from the spec: a track is an eligible candidate for a
detection when it is not yet claimed, its last update is within 1.5s of
the current timestamp, and its center distance is strictly below the
adaptive gate. -/
def eligible (d : Det) (now : ℝ) (used : List ℕ) (tr : Track) : Prop :=
  tr.id ∉ used ∧ now - tr.lastUpdateTime ≤ 1.5 ∧ distTo d tr < gate tr

noncomputable instance instEligibleDec (d : Det) (now : ℝ) (used : List ℕ) (tr : Track) :
    Decidable (eligible d now used tr) :=
  inferInstanceAs (Decidable (_ ∧ _ ∧ _))

/-- Modelled from the spec: the first element of a list attaining the
minimum of `f` (ties broken in favour of the earlier element), `none` on
the empty list. -/
noncomputable def firstMinBy (f : Track → ℝ) : List Track → Option Track
  | [] => none
  | t :: ts =>
    match firstMinBy f ts with
    | none => some t
    | some u => if f u < f t then some u else some t

/-- Modelled from the spec: the track matched to a detection — the first
minimal-distance element among the eligible candidates. -/
noncomputable def specMatch (d : Det) (reg : List Track) (now : ℝ) (used : List ℕ) :
    Option ℕ :=
  (firstMinBy (distTo d) (reg.filter fun tr => decide (eligible d now used tr))).map Track.id

/-- Modelled from the spec: the per-frame association pass, processing
detections in decode order and claiming each matched track. -/
noncomputable def specGreedy (reg : List Track) (now : ℝ) :
    List Det → List ℕ → List (Option ℕ)
  | [], _ => []
  | d :: ds, used =>
    match specMatch d reg now used with
    | some id => some id :: specGreedy reg now ds (id :: used)
    | none => none :: specGreedy reg now ds used

end SpecSide

section Invariants

/-- The gap relation between successive retained samples: at least one
sample interval apart. -/
def sampleGap (a b : TrackSample) : Prop := a.t + SAMPLE_INTERVAL_S ≤ b.t

/-- The sampler invariant of a single track: successive samples are at
least one sample interval apart; `lastSampleTime` is `none` only while no
sample was ever recorded, and otherwise bounds every sample time from
above and (minus the retention window) from below. -/
def trackInv (tr : Track) : Prop :=
  tr.samples.Chain' sampleGap ∧
  (tr.lastSampleTime = none → tr.samples = []) ∧
  (∀ last, tr.lastSampleTime = some last →
    ∀ s ∈ tr.samples, last - WINDOW_S ≤ s.t ∧ s.t ≤ last)

/-- Every track of a registry satisfies the sampler invariant. -/
def regInv (reg : List Track) : Prop := ∀ tr ∈ reg, trackInv tr

/-- What the specification's sample-window invariant actually guarantees:
samples sorted by non-decreasing timestamp, none older than the last
sampling time minus the retention window. -/
def sortedWindow (tr : Track) : Prop :=
  tr.samples.Chain' (fun a b => a.t ≤ b.t) ∧
  (∀ last, tr.lastSampleTime = some last → ∀ s ∈ tr.samples, last - WINDOW_S ≤ s.t)

/-- Every track of a registry is sorted and within the window. -/
def regSortedWindow (reg : List Track) : Prop := ∀ tr ∈ reg, sortedWindow tr

/-- A track's status always equals the classifier applied to its current
samples and box. -/
def statusInv (tr : Track) : Prop := tr.status = classify tr.samples tr.lastBox

/-- Every track of a registry satisfies `statusInv`. -/
def regStatusInv (reg : List Track) : Prop := ∀ tr ∈ reg, statusInv tr

/-- All ids of a registry are below the id counter. -/
def idsBelow (reg : List Track) (n : ℕ) : Prop := ∀ tr ∈ reg, tr.id < n

end Invariants

section ClassifierProofs

theorem addDist_eq (a b : Option Point) :
    addDist a b = match specDisp a b with | some v => v | none => 0 := by
  cases a <;> cases b <;> simp [addDist, specDisp]

theorem side_contr (a b : Option Point) :
    (if 0 < addDist a b then addDist a b else 0) = specSideContr (specDisp a b) := by
  cases a with
  | none => simp [addDist, specDisp, specSideContr]
  | some p =>
    cases b with
    | none => simp [addDist, specDisp, specSideContr]
    | some q =>
      simp only [addDist, specDisp, specSideContr]
      rcases eq_or_lt_of_le (hypot_nonneg (q.1 - p.1) (q.2 - p.2)) with h | h
      · simp [← h]
      · simp [h, ne_of_gt h]

theorem side_active (a b : Option Point) :
    0 < addDist a b ↔ specSideActive (specDisp a b) := by
  cases a with
  | none => simp [addDist, specDisp, specSideActive]
  | some p =>
    cases b with
    | none => simp [addDist, specDisp, specSideActive]
    | some q =>
      simp only [addDist, specDisp, specSideActive]
      constructor
      · exact fun h => ne_of_gt h
      · exact fun h => lt_of_le_of_ne (hypot_nonneg _ _) (Ne.symm h)

theorem motionFold_eq (l : List (TrackSample × TrackSample)) (t : ℝ) (c : ℕ) :
    l.foldl motionStep (t, c) =
      (t + (l.map fun p =>
          specSideContr (specDisp p.1.lw p.2.lw) + specSideContr (specDisp p.1.rw p.2.rw)).sum,
       c + l.countP fun p =>
          decide (specSideActive (specDisp p.1.lw p.2.lw) ∨
            specSideActive (specDisp p.1.rw p.2.rw))) := by
  induction l generalizing t c with
  | nil => simp
  | cons p ps ih =>
    simp only [List.foldl_cons, List.map_cons, List.sum_cons, List.countP_cons, motionStep, ih,
      side_contr]
    refine Prod.ext ?_ ?_
    · simp only
      ring
    · simp only
      by_cases hL : specSideActive (specDisp p.1.lw p.2.lw)
      · simp [side_active, hL]
        omega
      · by_cases hR : specSideActive (specDisp p.1.rw p.2.rw)
        · simp [side_active, hL, hR]
          omega
        · simp [side_active, hL, hR]

theorem classify_eq_specClassify (samples : List TrackSample) (box : Box) :
    classify samples box = specClassify samples box := by
  by_cases h2 : 2 ≤ samples.length
  · have h2' : ¬ samples.length < 2 := by omega
    simp only [classify, specClassify, if_pos h2, if_neg h2', motionFold_eq, zero_add,
      specTotalDistance, specCountPairs]
  · have h2' : samples.length < 2 := by omega
    simp only [classify, specClassify, if_pos h2', if_neg h2]

end ClassifierProofs

/-- C1: at classification time, a track with fewer than 2 samples is set
to `idle`; otherwise, with `totalDistance` the sum over consecutive sample
pairs of the non-zero wrist displacements (a side counting only when both
samples of the pair carry that wrist), `countPairs` the number of pairs
contributing at least one side, and `boxHeight = max(1, y2 - y1)` of the
last box, the status becomes `working` iff
`(countPairs > 0 ? (totalDistance / countPairs) / boxHeight : 0) ≥ 0.1`. -/
theorem c1_classifier_follows_spec :
    (∀ samples box, classify samples box = specClassify samples box) ∧
    ∀ tr d now, (updateTrack tr d now).status =
      specClassify (updateTrack tr d now).samples (updateTrack tr d now).lastBox := by
  refine ⟨classify_eq_specClassify, fun tr d now => ?_⟩
  unfold updateTrack
  by_cases h : sampleDue tr.lastSampleTime now <;>
    simp [h, classify_eq_specClassify]

section MatcherProofs

theorem not_eligible_of_used {d : Det} {now : ℝ} {used : List ℕ} {tr : Track}
    (h : tr.id ∈ used) : ¬ eligible d now used tr := fun he => he.1 h

theorem not_eligible_of_stale {d : Det} {now : ℝ} {used : List ℕ} {tr : Track}
    (h : 1.5 < now - tr.lastUpdateTime) : ¬ eligible d now used tr :=
  fun he => absurd he.2.1 (not_le.mpr h)

theorem not_eligible_of_far {d : Det} {now : ℝ} {used : List ℕ} {tr : Track}
    (h : ¬ distTo d tr < gate tr) : ¬ eligible d now used tr := fun he => h he.2.2

theorem matchFold_some (d : Det) (now : ℝ) (used : List ℕ) (l : List Track) :
    ∀ (i : ℕ) (v : ℝ),
      l.foldl (matchStep d now used) (some (i, v)) =
        match firstMinBy (distTo d) (l.filter fun tr => decide (eligible d now used tr)) with
        | none => some (i, v)
        | some u => if distTo d u < v then some (u.id, distTo d u) else some (i, v) := by
  induction l with
  | nil => intro i v; simp [firstMinBy]
  | cons t ts ih =>
    intro i v
    by_cases hu : t.id ∈ used
    · rw [List.foldl_cons, List.filter_cons_of_neg (by simp [not_eligible_of_used hu]),
        matchStep, if_pos hu]
      exact ih i v
    · by_cases hr : 1.5 < now - t.lastUpdateTime
      · rw [List.foldl_cons, List.filter_cons_of_neg (by simp [not_eligible_of_stale hr]),
          matchStep, if_neg hu, if_pos hr]
        exact ih i v
      · by_cases hg : distTo d t < gate t
        · have helig : eligible d now used t := ⟨hu, le_of_not_lt hr, hg⟩
          rw [List.foldl_cons, List.filter_cons_of_pos (by simp [helig])]
          by_cases hv : distTo d t < v
          · rw [matchStep, if_neg hu, if_neg hr]
            simp only [if_pos (And.intro hg hv)]
            rw [ih t.id (distTo d t)]
            rcases hfm : firstMinBy (distTo d)
                (ts.filter fun tr => decide (eligible d now used tr)) with _ | u
            · simp [firstMinBy, hfm, hv]
            · by_cases hut : distTo d u < distTo d t
              · simp [firstMinBy, hfm, hut, lt_trans hut hv]
              · simp [firstMinBy, hfm, hut, hv]
          · rw [matchStep, if_neg hu, if_neg hr]
            simp only [if_neg (fun hc : _ ∧ _ => hv hc.2)]
            rw [ih i v]
            rcases hfm : firstMinBy (distTo d)
                (ts.filter fun tr => decide (eligible d now used tr)) with _ | u
            · simp [firstMinBy, hfm, hv]
            · by_cases hut : distTo d u < distTo d t
              · simp [firstMinBy, hfm, hut]
              · have hnv : ¬ distTo d u < v := fun hlt =>
                  hv (lt_of_le_of_lt (le_of_not_lt hut) hlt)
                simp [firstMinBy, hfm, hut, hv, hnv]
        · rw [List.foldl_cons, List.filter_cons_of_neg (by simp [not_eligible_of_far hg]),
            matchStep, if_neg hu, if_neg hr]
          simp only [if_neg (fun hc : _ ∧ _ => hg hc.1)]
          exact ih i v

theorem matchFold_none (d : Det) (now : ℝ) (used : List ℕ) (l : List Track) :
    l.foldl (matchStep d now used) none =
      (firstMinBy (distTo d) (l.filter fun tr => decide (eligible d now used tr))).map
        fun u => (u.id, distTo d u) := by
  induction l with
  | nil => simp [firstMinBy]
  | cons t ts ih =>
    by_cases hu : t.id ∈ used
    · rw [List.foldl_cons, List.filter_cons_of_neg (by simp [not_eligible_of_used hu]),
        matchStep, if_pos hu]
      exact ih
    · by_cases hr : 1.5 < now - t.lastUpdateTime
      · rw [List.foldl_cons, List.filter_cons_of_neg (by simp [not_eligible_of_stale hr]),
          matchStep, if_neg hu, if_pos hr]
        exact ih
      · by_cases hg : distTo d t < gate t
        · have helig : eligible d now used t := ⟨hu, le_of_not_lt hr, hg⟩
          rw [List.foldl_cons, List.filter_cons_of_pos (by simp [helig]),
            matchStep, if_neg hu, if_neg hr]
          simp only [if_pos hg]
          rw [matchFold_some]
          rcases hfm : firstMinBy (distTo d)
              (ts.filter fun tr => decide (eligible d now used tr)) with _ | u
          · simp [firstMinBy, hfm]
          · by_cases hut : distTo d u < distTo d t
            · simp [firstMinBy, hfm, hut]
            · simp [firstMinBy, hfm, hut]
        · rw [List.foldl_cons, List.filter_cons_of_neg (by simp [not_eligible_of_far hg]),
            matchStep, if_neg hu, if_neg hr]
          simp only [if_neg hg]
          exact ih

theorem matchOne_eq_specMatch (d : Det) (reg : List Track) (now : ℝ) (used : List ℕ) :
    matchOne d reg now used = specMatch d reg now used := by
  unfold matchOne specMatch
  rw [matchFold_none, Option.map_map]
  rfl

theorem greedyAssign_eq_specGreedy (reg : List Track) (now : ℝ) (dets : List Det)
    (used : List ℕ) : greedyAssign reg now dets used = specGreedy reg now dets used := by
  induction dets generalizing used with
  | nil => rfl
  | cons d ds ih =>
    rw [greedyAssign, specGreedy, matchOne_eq_specMatch]
    rcases specMatch d reg now used with _ | id <;> simp [ih]

end MatcherProofs

/-- C3: each detection, processed in decode order, is matched to exactly
the unclaimed track with `lastUpdateTime` within 1.5s of the current
timestamp whose center distance is minimal among those strictly below
`max(0.5 × diagonal(lastBox), 80)`, ties broken by the first-encountered
iteration order over tracks; a detection with no eligible candidate is
left unmatched by this pass. -/
theorem c3_matching_follows_spec :
    (∀ d reg now used, matchOne d reg now used = specMatch d reg now used) ∧
    ∀ reg now dets used, greedyAssign reg now dets used = specGreedy reg now dets used :=
  ⟨matchOne_eq_specMatch, greedyAssign_eq_specGreedy⟩

/-- C4: the expiry pass keeps a track exactly when its `lastUpdateTime`
is within 2.0 seconds of the current timestamp, and it runs on the
registry as it was before association. -/
theorem c4_expiry_exact (reg : List Track) (now : ℝ) (tr : Track) :
    tr ∈ expire reg now ↔ tr ∈ reg ∧ now - tr.lastUpdateTime ≤ 2.0 := by
  simp [expire, List.mem_filter, not_lt]

section AssignmentProofs

theorem firstMinBy_mem {f : Track → ℝ} :
    ∀ {l : List Track} {u : Track}, firstMinBy f l = some u → u ∈ l := by
  intro l
  induction l with
  | nil => intro u h; simp [firstMinBy] at h
  | cons t ts ih =>
    intro u h
    rw [firstMinBy] at h
    rcases hfm : firstMinBy f ts with _ | w <;> rw [hfm] at h
    · have ht : some t = some u := by simpa using h
      cases ht
      exact List.mem_cons_self t ts
    · by_cases hc : f w < f t
      · have hw : some w = some u := by simpa [hc] using h
        cases hw
        exact List.mem_cons_of_mem t (ih hfm)
      · have ht : some t = some u := by simpa [hc] using h
        cases ht
        exact List.mem_cons_self t ts

theorem matchOne_sound {d : Det} {reg : List Track} {now : ℝ} {used : List ℕ} {id : ℕ}
    (h : matchOne d reg now used = some id) :
    (∃ tr ∈ reg, tr.id = id) ∧ id ∉ used := by
  rw [matchOne_eq_specMatch] at h
  unfold specMatch at h
  rcases hfm : firstMinBy (distTo d)
      (reg.filter fun tr => decide (eligible d now used tr)) with _ | u
  · rw [hfm] at h; cases h
  · rw [hfm] at h
    have hu : u ∈ reg.filter fun tr => decide (eligible d now used tr) := firstMinBy_mem hfm
    have hmem := List.mem_of_mem_filter hu
    have helig : eligible d now used u := by
      have := List.of_mem_filter hu
      simpa using this
    cases h
    exact ⟨⟨u, hmem, rfl⟩, helig.1⟩

theorem greedyAssign_length (reg : List Track) (now : ℝ) :
    ∀ (dets : List Det) (used : List ℕ),
      (greedyAssign reg now dets used).length = dets.length := by
  intro dets
  induction dets with
  | nil => intro used; rfl
  | cons d ds ih =>
    intro used
    rw [greedyAssign]
    rcases matchOne d reg now used with _ | id <;> simp [ih]

theorem greedyAssign_sound (reg : List Track) (now : ℝ) :
    ∀ (dets : List Det) (used : List ℕ),
      (∀ id, some id ∈ greedyAssign reg now dets used →
        (∃ tr ∈ reg, tr.id = id) ∧ id ∉ used) ∧
      (greedyAssign reg now dets used).reduceOption.Nodup := by
  intro dets
  induction dets with
  | nil => intro used; simp [greedyAssign]
  | cons d ds ih =>
    intro used
    rw [greedyAssign]
    rcases hm : matchOne d reg now used with _ | i
    · refine ⟨?_, ?_⟩
      · intro id hid
        rcases List.mem_cons.mp hid with hh | hh
        · cases hh
        · exact (ih used).1 id hh
      · simpa [List.reduceOption_cons_of_none] using (ih used).2
    · have hs := matchOne_sound hm
      refine ⟨?_, ?_⟩
      · intro id hid
        rcases List.mem_cons.mp hid with hh | hh
        · cases hh; exact hs
        · have := (ih (i :: used)).1 id hh
          exact ⟨this.1, fun hin => this.2 (List.mem_cons_of_mem i hin)⟩
      · rw [List.reduceOption_cons_of_some]
        refine List.nodup_cons.mpr ⟨?_, (ih (i :: used)).2⟩
        intro hin
        have : some i ∈ greedyAssign reg now ds (i :: used) :=
          List.reduceOption_mem_iff.mp hin
        exact ((ih (i :: used)).1 i this).2 (List.mem_cons_self i used)

theorem createAll_sound (now : ℝ) :
    ∀ (pairs : List (Det × Option ℕ)) (n : ℕ),
      (createAll now pairs n).2.2.length = pairs.length ∧
      n ≤ (createAll now pairs n).2.1 ∧
      (∀ id ∈ (createAll now pairs n).2.2,
        some id ∈ pairs.map Prod.snd ∨ (n ≤ id ∧ id < (createAll now pairs n).2.1)) ∧
      ((pairs.map Prod.snd).reduceOption.Nodup →
        (∀ id, some id ∈ pairs.map Prod.snd → id < n) →
        (createAll now pairs n).2.2.Nodup) := by
  intro pairs
  induction pairs with
  | nil => intro n; simp [createAll]
  | cons p rest ih =>
    intro n
    rcases p with ⟨d, a⟩
    rcases a with _ | i
    · rw [createAll]
      obtain ⟨ihlen, ihle, ihmem, ihnd⟩ := ih (n + 1)
      have hmap : List.map Prod.snd ((d, (none : Option ℕ)) :: rest) =
          none :: List.map Prod.snd rest := by simp
      refine ⟨by simpa using ihlen, le_trans (Nat.le_succ n) ihle, ?_, ?_⟩
      · intro id hid
        rcases List.mem_cons.mp hid with hh | hh
        · cases hh
          exact Or.inr ⟨le_refl n, lt_of_lt_of_le (Nat.lt_succ_self n) ihle⟩
        · rcases ihmem id hh with hcase | hcase
          · exact Or.inl (by rw [hmap]; exact List.mem_cons_of_mem _ hcase)
          · exact Or.inr ⟨le_trans (Nat.le_succ n) hcase.1, hcase.2⟩
      · intro hnd hbnd
        rw [hmap, List.reduceOption_cons_of_none] at hnd
        refine List.nodup_cons.mpr ⟨?_, ?_⟩
        · intro hin
          rcases ihmem n hin with hcase | hcase
          · have : n < n := hbnd n (by rw [hmap]; exact List.mem_cons_of_mem _ hcase)
            omega
          · omega
        · refine ihnd hnd ?_
          intro id hid
          have : id < n := hbnd id (by rw [hmap]; exact List.mem_cons_of_mem _ hid)
          omega
    · rw [createAll]
      obtain ⟨ihlen, ihle, ihmem, ihnd⟩ := ih n
      have hmap : List.map Prod.snd ((d, some i) :: rest) =
          some i :: List.map Prod.snd rest := by simp
      have hsome : some i ∈ List.map Prod.snd ((d, some i) :: rest) := by
        rw [hmap]; exact List.mem_cons_self _ _
      refine ⟨by simpa using ihlen, ihle, ?_, ?_⟩
      · intro id hid
        rcases List.mem_cons.mp hid with hh | hh
        · cases hh
          exact Or.inl hsome
        · rcases ihmem id hh with hcase | hcase
          · exact Or.inl (by rw [hmap]; exact List.mem_cons_of_mem _ hcase)
          · exact Or.inr hcase
      · intro hnd hbnd
        rw [hmap, List.reduceOption_cons_of_some] at hnd
        obtain ⟨hnotin, hnd'⟩ := List.nodup_cons.mp hnd
        refine List.nodup_cons.mpr ⟨?_, ?_⟩
        · intro hin
          rcases ihmem i hin with hcase | hcase
          · exact hnotin (List.reduceOption_mem_iff.mpr hcase)
          · have : i < n := hbnd i hsome
            omega
        · refine ihnd hnd' ?_
          intro id hid
          exact hbnd id (by rw [hmap]; exact List.mem_cons_of_mem _ hid)

end AssignmentProofs

/-- C2: the per-frame detection-to-track assignment (including freshly
created tracks) is one-to-one — it assigns every detection exactly one
track id and never the same id twice — provided every registry id is
below the id counter (which creation maintains). -/
theorem c2_assignment_one_to_one (reg : List Track) (nextId : ℕ) (dets : List Det) (now : ℝ)
    (h : idsBelow reg nextId) :
    (processFrame reg nextId dets now).ids.length = dets.length ∧
    (processFrame reg nextId dets now).ids.Nodup := by
  unfold processFrame
  simp only
  set reg1 := expire reg now with hreg1
  set asg := greedyAssign reg1 now dets [] with hasg
  have hlen : asg.length = dets.length := greedyAssign_length reg1 now dets []
  have hziplen : (dets.zip asg).length = dets.length := by
    rw [List.length_zip, hlen, min_self]
  have hsnd : (dets.zip asg).map Prod.snd = asg :=
    List.map_snd_zip dets asg (le_of_eq hlen)
  obtain ⟨clen, _, _, cnd⟩ := createAll_sound now (dets.zip asg) nextId
  refine ⟨by rw [clen, hziplen], ?_⟩
  refine cnd ?_ ?_
  · rw [hsnd]
    exact (greedyAssign_sound reg1 now dets []).2
  · intro id hid
    rw [hsnd] at hid
    obtain ⟨⟨tr, htr, rfl⟩, _⟩ := (greedyAssign_sound reg1 now dets []).1 id hid
    have : tr ∈ reg := List.mem_of_mem_filter htr
    exact h tr this

/-- C2 witness: with an empty registry and two detections, the frame
assigns two distinct fresh ids. -/
theorem c2_assignment_one_to_one_witness :
    (processFrame [] 1 [{ box := ⟨0, 0, 0, 0⟩, center := (0, 0), score := 1 },
      { box := ⟨0, 0, 0, 0⟩, center := (0, 0), score := 1 }] 0).ids.length = 2 ∧
    (processFrame [] 1 [{ box := ⟨0, 0, 0, 0⟩, center := (0, 0), score := 1 },
      { box := ⟨0, 0, 0, 0⟩, center := (0, 0), score := 1 }] 0).ids.Nodup := by
  have := c2_assignment_one_to_one []
    1 [{ box := ⟨0, 0, 0, 0⟩, center := (0, 0), score := 1 },
      { box := ⟨0, 0, 0, 0⟩, center := (0, 0), score := 1 }] 0 (by intro tr htr; cases htr)
  simpa using this

section SamplerProofs

theorem updateTrack_id (tr : Track) (d : Det) (now : ℝ) : (updateTrack tr d now).id = tr.id := by
  unfold updateTrack
  by_cases h : sampleDue tr.lastSampleTime now <;> simp [h]

theorem updateTrack_lastBox (tr : Track) (d : Det) (now : ℝ) :
    (updateTrack tr d now).lastBox = d.box := by
  unfold updateTrack
  by_cases h : sampleDue tr.lastSampleTime now <;> simp [h]

theorem updateTrack_samples_due {tr : Track} (d : Det) {now : ℝ}
    (h : sampleDue tr.lastSampleTime now) :
    (updateTrack tr d now).samples =
      (tr.samples ++ [mkSample d now]).filter fun s => decide (now - WINDOW_S ≤ s.t) := by
  unfold updateTrack
  simp [h]

theorem updateTrack_lastSampleTime_due {tr : Track} (d : Det) {now : ℝ}
    (h : sampleDue tr.lastSampleTime now) :
    (updateTrack tr d now).lastSampleTime = some now := by
  unfold updateTrack
  simp [h]

theorem updateTrack_samples_not_due {tr : Track} (d : Det) {now : ℝ}
    (h : ¬ sampleDue tr.lastSampleTime now) :
    (updateTrack tr d now).samples = tr.samples := by
  unfold updateTrack
  simp [h]

theorem updateTrack_lastSampleTime_not_due {tr : Track} (d : Det) {now : ℝ}
    (h : ¬ sampleDue tr.lastSampleTime now) :
    (updateTrack tr d now).lastSampleTime = tr.lastSampleTime := by
  unfold updateTrack
  simp [h]

/-- The samples-and-cadence part of `updateTrack`, on the two fields it
reads and writes. -/
noncomputable def stepSamples (st : List TrackSample × Option ℝ) (d : Det) (now : ℝ) :
    List TrackSample × Option ℝ :=
  if sampleDue st.2 now then
    ((st.1 ++ [mkSample d now]).filter fun s => decide (now - WINDOW_S ≤ s.t), some now)
  else st

theorem updateTrack_stepSamples (tr : Track) (d : Det) (now : ℝ) :
    ((updateTrack tr d now).samples, (updateTrack tr d now).lastSampleTime) =
      stepSamples (tr.samples, tr.lastSampleTime) d now := by
  unfold updateTrack stepSamples
  by_cases h : sampleDue tr.lastSampleTime now <;> simp [h]

theorem applyUpdates_stepSamples :
    ∀ (updates : List (ℝ × Det)) (tr : Track),
      ((applyUpdates tr updates).samples, (applyUpdates tr updates).lastSampleTime) =
        updates.foldl (fun st u => stepSamples st u.2 u.1)
          (tr.samples, tr.lastSampleTime) := by
  intro updates
  induction updates with
  | nil => intro tr; rfl
  | cons u us ih =>
    intro tr
    have h1 : applyUpdates tr (u :: us) = applyUpdates (updateTrack tr u.2 u.1) us := rfl
    rw [h1, ih, List.foldl_cons, ← updateTrack_stepSamples]

theorem sampleGap_trans : ∀ {a b c : TrackSample}, sampleGap a b → sampleGap b c → sampleGap a c := by
  intro a b c hab hbc
  unfold sampleGap SAMPLE_INTERVAL_S at *
  norm_num at *
  linarith

theorem chain'_filter_of_gap {l : List TrackSample} (h : l.Chain' sampleGap)
    (p : TrackSample → Bool) : (l.filter p).Chain' sampleGap := by
  haveI : IsTrans TrackSample sampleGap := ⟨fun _ _ _ => sampleGap_trans⟩
  exact h.sublist (List.filter_sublist l)

theorem updateTrack_trackInv {tr : Track} (d : Det) (now : ℝ) (h : trackInv tr) :
    trackInv (updateTrack tr d now) := by
  obtain ⟨hchain, hnone, hsome⟩ := h
  by_cases hd : sampleDue tr.lastSampleTime now
  · have hnew : (decide (now - WINDOW_S ≤ (mkSample d now).t)) = true := by
      simp [mkSample, WINDOW_S]
      norm_num
    have hsamp := updateTrack_samples_due d hd
    have hlst := updateTrack_lastSampleTime_due d hd
    have hsplit : (updateTrack tr d now).samples =
        (tr.samples.filter fun s => decide (now - WINDOW_S ≤ s.t)) ++ [mkSample d now] := by
      rw [hsamp, List.filter_append]
      simp only [List.append_cancel_left_eq]
      simp [mkSample, WINDOW_S]
      linarith
    have hold : ∀ s ∈ tr.samples, s.t + SAMPLE_INTERVAL_S ≤ now := by
      intro s hs
      rcases hlt : tr.lastSampleTime with _ | last
      · rw [hnone hlt] at hs
        cases hs
      · have hb := (hsome last hlt s hs).2
        have hdue : SAMPLE_INTERVAL_S ≤ now - last := by
          rw [hlt] at hd
          exact hd
        linarith
    refine ⟨?_, ?_, ?_⟩
    · rw [hsplit]
      rw [List.chain'_append]
      refine ⟨chain'_filter_of_gap hchain _, List.chain'_singleton _, ?_⟩
      intro x hx y hy
      have hx' : x ∈ tr.samples.filter fun s => decide (now - WINDOW_S ≤ s.t) := by
        rcases List.mem_getLast?_eq_getLast hx with ⟨hne, hxe⟩
        rw [hxe]
        exact List.getLast_mem hne
      have hxmem := List.mem_of_mem_filter hx'
      have hy' : y = mkSample d now := by
        simp [List.head?] at hy
        exact hy.symm
      rw [hy']
      unfold sampleGap
      have := hold x hxmem
      simpa [mkSample] using this
    · intro hcon
      rw [hlst] at hcon
      cases hcon
    · intro last hlast s hs
      rw [hlst] at hlast
      cases hlast
      rw [hsplit] at hs
      rcases List.mem_append.mp hs with hs' | hs'
      · have hwin := List.of_mem_filter hs'
        have hmem := List.mem_of_mem_filter hs'
        have h1 : now - WINDOW_S ≤ s.t := by simpa using hwin
        have h2 : s.t + SAMPLE_INTERVAL_S ≤ now := hold s hmem
        have : (0 : ℝ) < SAMPLE_INTERVAL_S := by norm_num [SAMPLE_INTERVAL_S]
        exact ⟨h1, by linarith⟩
      · have : s = mkSample d now := by simpa using hs'
        rw [this]


        have : (0 : ℝ) < WINDOW_S := by norm_num [WINDOW_S]
        constructor
        · simp [mkSample]
          linarith
        · simp [mkSample]
  · have hsamp := updateTrack_samples_not_due d hd
    have hlst := updateTrack_lastSampleTime_not_due d hd
    rw [trackInv, hsamp, hlst]
    exact ⟨hchain, hnone, hsome⟩

theorem trackInv_newTrack (id : ℕ) (d : Det) (now : ℝ) : trackInv (newTrack id d now) := by
  refine ⟨?_, ?_, ?_⟩ <;> simp [newTrack]

theorem trackInv_sortedWindow {tr : Track} (h : trackInv tr) : sortedWindow tr := by
  obtain ⟨hchain, _, hsome⟩ := h
  refine ⟨hchain.imp ?_, fun last hl s hs => (hsome last hl s hs).1⟩
  intro a b hab
  unfold sampleGap SAMPLE_INTERVAL_S at hab
  norm_num at hab
  linarith

theorem gap_chain_head_le {a : TrackSample} :
    ∀ {l : List TrackSample}, (a :: l).Chain' sampleGap →
      ∀ x ∈ l, a.t + SAMPLE_INTERVAL_S ≤ x.t := by
  intro l
  induction l generalizing a with
  | nil => intro _ x hx; cases hx
  | cons b bs ih =>
    intro h x hx
    have hab : sampleGap a b := (List.chain'_cons.mp h).1
    have htl : (b :: bs).Chain' sampleGap := (List.chain'_cons.mp h).2
    rcases List.mem_cons.mp hx with rfl | hx'
    · exact hab
    · have hb := ih htl x hx'
      have hpos : (0 : ℝ) < SAMPLE_INTERVAL_S := by norm_num [SAMPLE_INTERVAL_S]
      unfold sampleGap at hab
      linarith

theorem gap_chain_length :
    ∀ (l : List TrackSample) (lo : ℝ) (k : ℕ), l.Chain' sampleGap →
      (∀ s ∈ l, lo ≤ s.t) → (∀ s ∈ l, s.t ≤ lo + SAMPLE_INTERVAL_S * k) →
      l.length ≤ k + 1 := by
  intro l
  induction l with
  | nil => intro lo k _ _ _; simp
  | cons s rest ih =>
    intro lo k hchain hlo hhi
    cases k with
    | zero =>
      cases rest with
      | nil => simp
      | cons y ys =>
        exfalso
        have hy : s.t + SAMPLE_INTERVAL_S ≤ y.t :=
          gap_chain_head_le hchain y (List.mem_cons_self y ys)
        have h1 : lo ≤ s.t := hlo s (List.mem_cons_self s (y :: ys))
        have h2 : y.t ≤ lo + SAMPLE_INTERVAL_S * (0 : ℕ) :=
          hhi y (List.mem_cons_of_mem s (List.mem_cons_self y ys))
        have hpos : (0 : ℝ) < SAMPLE_INTERVAL_S := by norm_num [SAMPLE_INTERVAL_S]
        push_cast at h2
        linarith
    | succ k' =>
      have hrest : rest.Chain' sampleGap := hchain.tail
      have hlo' : ∀ x ∈ rest, s.t + SAMPLE_INTERVAL_S ≤ x.t := gap_chain_head_le hchain
      have hhi' : ∀ x ∈ rest, x.t ≤ (s.t + SAMPLE_INTERVAL_S) + SAMPLE_INTERVAL_S * k' := by
        intro x hx
        have h1 := hhi x (List.mem_cons_of_mem s hx)
        have h2 : lo ≤ s.t := hlo s (List.mem_cons_self s rest)
        push_cast at h1 ⊢
        nlinarith [h1, h2]
      have := ih (s.t + SAMPLE_INTERVAL_S) k' hrest hlo' hhi'
      simpa using Nat.succ_le_succ this

theorem trackInv_samples_le {tr : Track} (h : trackInv tr) : tr.samples.length ≤ 7 := by
  obtain ⟨hchain, hnone, hsome⟩ := h
  rcases hlst : tr.lastSampleTime with _ | last
  · rw [hnone hlst]
    simp
  · have hbound := gap_chain_length tr.samples (last - WINDOW_S) 6 hchain
      (fun s hs => (hsome last hlst s hs).1)
      (fun s hs => by
        have := (hsome last hlst s hs).2
        norm_num [SAMPLE_INTERVAL_S, WINDOW_S]
        linarith)
    omega

theorem applyUpdates_trackInv {tr : Track} (updates : List (ℝ × Det)) (h : trackInv tr) :
    trackInv (applyUpdates tr updates) := by
  induction updates generalizing tr with
  | nil => exact h
  | cons u us ih =>
    have h1 : applyUpdates tr (u :: us) = applyUpdates (updateTrack tr u.2 u.1) us := rfl
    rw [h1]
    exact ih (updateTrack_trackInv u.2 u.1 h)

end SamplerProofs

section RegistryProofs

theorem createAll_created (now : ℝ) :
    ∀ (pairs : List (Det × Option ℕ)) (n : ℕ) (t : Track),
      t ∈ (createAll now pairs n).1 → ∃ id d, t = newTrack id d now := by
  intro pairs
  induction pairs with
  | nil => intro n t ht; cases ht
  | cons p rest ih =>
    intro n t ht
    rcases p with ⟨d, a⟩
    rcases a with _ | i
    · simp only [createAll] at ht
      rcases List.mem_cons.mp ht with rfl | ht'
      · exact ⟨n, d, rfl⟩
      · exact ih (n + 1) t ht'
    · simp only [createAll] at ht
      exact ih n t ht

theorem updateAll_pres (now : ℝ) (P : Track → Prop)
    (hP : ∀ tr d, P tr → P (updateTrack tr d now)) :
    ∀ (work : List (Det × ℕ)) (reg : List Track), (∀ tr ∈ reg, P tr) →
      ∀ tr ∈ updateAll now reg work, P tr := by
  intro work
  induction work with
  | nil => intro reg h tr htr; exact h tr htr
  | cons pr rest ih =>
    intro reg h tr htr
    have h1 : updateAll now reg (pr :: rest) =
        updateAll now (reg.map fun t => if t.id = pr.2 then updateTrack t pr.1 now else t)
          rest := rfl
    rw [h1] at htr
    refine ih _ ?_ tr htr
    intro t' ht'
    rcases List.mem_map.mp ht' with ⟨t0, ht0, rfl⟩
    by_cases hc : t0.id = pr.2
    · rw [if_pos hc]
      exact hP t0 pr.1 (h t0 ht0)
    · rw [if_neg hc]
      exact h t0 ht0

theorem updateAll_mem_untouched (now : ℝ) :
    ∀ (work : List (Det × ℕ)) (reg : List Track) (tr : Track),
      tr ∈ reg → (∀ pr ∈ work, tr.id ≠ pr.2) → tr ∈ updateAll now reg work := by
  intro work
  induction work with
  | nil => intro reg tr h _; exact h
  | cons pr rest ih =>
    intro reg tr h hne
    have h1 : updateAll now reg (pr :: rest) =
        updateAll now (reg.map fun t => if t.id = pr.2 then updateTrack t pr.1 now else t)
          rest := rfl
    rw [h1]
    refine ih _ tr ?_ ?_
    · have heq : (if tr.id = pr.2 then updateTrack tr pr.1 now else tr) = tr :=
        if_neg (hne pr (List.mem_cons_self pr rest))

      exact heq ▸ List.mem_map_of_mem _ h
    · intro pr' hpr'
      exact hne pr' (List.mem_cons_of_mem pr hpr')

theorem processFrame_pres (P : Track → Prop) (now : ℝ)
    (hP : ∀ tr d, P tr → P (updateTrack tr d now))
    (hnew : ∀ id d, P (newTrack id d now))
    (reg : List Track) (n : ℕ) (dets : List Det) (h : ∀ tr ∈ reg, P tr) :
    ∀ tr ∈ (processFrame reg n dets now).registry, P tr := by
  unfold processFrame
  simp only
  refine updateAll_pres now P hP _ _ ?_
  intro tr htr
  rcases List.mem_append.mp htr with hl | hr
  · exact h tr (List.mem_of_mem_filter hl)
  · obtain ⟨id, d, rfl⟩ := createAll_created now _ _ tr hr
    exact hnew id d

theorem updateTrack_statusInv (tr : Track) (d : Det) (now : ℝ) :
    statusInv (updateTrack tr d now) := by
  unfold statusInv updateTrack
  by_cases h : sampleDue tr.lastSampleTime now <;> simp [h]

theorem statusInv_newTrack (id : ℕ) (d : Det) (now : ℝ) : statusInv (newTrack id d now) := by
  unfold statusInv newTrack classify
  simp

end RegistryProofs

/-- A degenerate detection at the origin used by the concrete scenarios:
zero-size box, center `(0,0)`, no observed wrists. -/
noncomputable def d0 : Det := { box := ⟨0, 0, 0, 0⟩, center := (0, 0), score := 1 }

theorem processFrame_fresh (d : Det) (n : ℕ) (now : ℝ) :
    processFrame [] n [d] now =
      { registry := [updateTrack (newTrack n d now) d now], nextId := n + 1, ids := [n] } := by
  unfold processFrame expire greedyAssign matchOne
  simp [createAll, updateAll, newTrack]

theorem processFrame_single (tr : Track) (d : Det) (n : ℕ) (now : ℝ)
    (hexp : ¬ 2.0 < now - tr.lastUpdateTime) (hrec : ¬ 1.5 < now - tr.lastUpdateTime)
    (hdist : distTo d tr < gate tr) :
    processFrame [tr] n [d] now =
      { registry := [updateTrack tr d now], nextId := n, ids := [tr.id] } := by
  unfold processFrame expire greedyAssign matchOne
  simp [hexp, hrec, hdist, matchStep, createAll, updateAll]


/-- C6 (amended): after any processing pass on a registry whose tracks
satisfy the sampler invariant, every track's samples are sorted by
non-decreasing timestamp and contain no entry older than that track's
`lastSampleTime` minus the 3.0s retention window.  (The original claim —
no entry older than the *current video timestamp* minus the window — is
refuted by `c6_window_counterexample`: eviction only runs when a new
sample is recorded.) -/
theorem c6_sorted_and_window (reg : List Track) (n : ℕ) (dets : List Det) (now : ℝ)
    (h : regInv reg) :
    regInv (processFrame reg n dets now).registry ∧
    regSortedWindow (processFrame reg n dets now).registry := by
  have hpres : regInv (processFrame reg n dets now).registry :=
    processFrame_pres trackInv now (fun tr d htr => updateTrack_trackInv d now htr)
      (fun id d => trackInv_newTrack id d now) reg n dets h
  exact ⟨hpres, fun tr htr => trackInv_sortedWindow (hpres tr htr)⟩

/-- C6 witness: one pass on an empty registry with one detection yields a
registry that is sorted and within the window. -/
theorem c6_sorted_and_window_witness :
    regInv (processFrame [] 1 [d0] 0).registry ∧
    regSortedWindow (processFrame [] 1 [d0] 0).registry :=
  c6_sorted_and_window [] 1 [d0] 0 (fun tr htr => absurd htr (List.not_mem_nil tr))

/-- C7 (amended): under any update sequence with non-decreasing
timestamps, a track satisfying the sampler invariant retains at most 7
samples (not 6 as claimed: the window bounds are inclusive, so samples at
0, 0.5, …, 3.0 all survive; see `c7_six_counterexample`). -/
theorem c7_samples_bounded (tr : Track) (updates : List (ℝ × Det))
    (hmono : updates.Chain' fun a b => a.1 ≤ b.1) (hinv : trackInv tr) :
    (applyUpdates tr updates).samples.length ≤ 7 :=
  trackInv_samples_le (applyUpdates_trackInv updates hinv)

/-- C7 witness: a fresh track updated once retains at most 7 samples. -/
theorem c7_samples_bounded_witness :
    (applyUpdates (newTrack 1 d0 0) [((0.5 : ℝ), d0)]).samples.length ≤ 7 :=
  c7_samples_bounded (newTrack 1 d0 0) [((0.5 : ℝ), d0)]
    (List.chain'_singleton _) (trackInv_newTrack 1 d0 0)

/-- C8: after every processing pass, the status of every track remaining
in the registry — matched or not this frame — equals the classifier
applied to that track's current samples (and current box), i.e. the
status is always the pure classification of the current samples. -/
theorem c8_status_pure_function (reg : List Track) (n : ℕ) (dets : List Det) (now : ℝ)
    (h : regStatusInv reg) :
    regStatusInv (processFrame reg n dets now).registry :=
  processFrame_pres statusInv now (fun tr d _ => updateTrack_statusInv tr d now)
    (fun id d => statusInv_newTrack id d now) reg n dets h

/-- C8 witness: one pass on the empty registry with one detection. -/
theorem c8_status_pure_function_witness :
    regStatusInv (processFrame [] 1 [d0] 0).registry :=
  c8_status_pure_function [] 1 [d0] 0 (fun tr htr => absurd htr (List.not_mem_nil tr))

/-- The initial track of the C5 sampling-cadence scenario: freshly
created, last sample recorded at `t = 0`. -/
noncomputable def c5Track : Track :=
  { id := 1, lastBox := ⟨0, 0, 0, 0⟩, lastCenter := (0, 0), lastUpdateTime := 0,
    lastSampleTime := some 0, samples := [], status := Status.idle }

/-- Twenty updates at 0.1s intervals over 2s. -/
noncomputable def c5Updates : List (ℝ × Det) :=
  [(0.1, d0), (0.2, d0), (0.3, d0), (0.4, d0), (0.5, d0),
   (0.6, d0), (0.7, d0), (0.8, d0), (0.9, d0), (1.0, d0),
   (1.1, d0), (1.2, d0), (1.3, d0), (1.4, d0), (1.5, d0),
   (1.6, d0), (1.7, d0), (1.8, d0), (1.9, d0), (2.0, d0)]

/-- C5: a sample (carrying the detection's possibly-absent wrists,
timestamped `now`) is appended — and `lastSampleTime` set to `now` —
exactly when `now - lastSampleTime ≥ 0.5s`; otherwise both are left
unchanged.  Consequently 20 updates at 0.1s intervals over 2s record
exactly 4 samples (every 5th update), not 20. -/
theorem c5_sampling_cadence :
    (∀ (tr : Track) (d : Det) (now : ℝ),
      (sampleDue tr.lastSampleTime now →
        (updateTrack tr d now).samples =
          (tr.samples ++ [mkSample d now]).filter (fun s => decide (now - WINDOW_S ≤ s.t)) ∧
        (updateTrack tr d now).lastSampleTime = some now) ∧
      (¬ sampleDue tr.lastSampleTime now →
        (updateTrack tr d now).samples = tr.samples ∧
        (updateTrack tr d now).lastSampleTime = tr.lastSampleTime)) ∧
    (applyUpdates c5Track c5Updates).samples.length = 4 := by
  refine ⟨fun tr d now =>
    ⟨fun h => ⟨updateTrack_samples_due d h, updateTrack_lastSampleTime_due d h⟩,
     fun h => ⟨updateTrack_samples_not_due d h, updateTrack_lastSampleTime_not_due d h⟩⟩, ?_⟩
  have h := applyUpdates_stepSamples c5Updates c5Track
  have hs := congrArg Prod.fst h
  simp only at hs
  rw [hs]
  norm_num [c5Track, c5Updates, stepSamples, sampleDue, SAMPLE_INTERVAL_S, WINDOW_S,
    mkSample, List.filter, d0]

/-- C5 witness: a due update (2s after the last sample) appends exactly
the new sample. -/
theorem c5_sampling_cadence_witness :
    (updateTrack c5Track d0 2).samples = [{ t := 2 }] ∧
    (updateTrack c5Track d0 2).lastSampleTime = some 2 := by
  have h := (c5_sampling_cadence.1 c5Track d0 2).1
    (by norm_num [sampleDue, SAMPLE_INTERVAL_S, c5Track])
  refine ⟨?_, h.2⟩
  rw [h.1]
  norm_num [c5Track, mkSample, d0, WINDOW_S, List.filter]

/-- Seven updates at exactly the 0.5s sampling cadence spanning the whole
3s window. -/
noncomputable def c7Updates : List (ℝ × Det) :=
  [(0, d0), (0.5, d0), (1.0, d0), (1.5, d0), (2.0, d0), (2.5, d0), (3.0, d0)]

/-- C7 counterexample: a fresh track updated at 0, 0.5, …, 3.0 retains 7
samples — the sample at `t = 0` still satisfies `0 ≥ 3.0 - 3.0` — so the
claimed bound of 6 is wrong. -/
theorem c7_six_counterexample :
    ¬ ((applyUpdates (newTrack 1 d0 0) c7Updates).samples.length ≤ 6) := by
  have h := applyUpdates_stepSamples c7Updates (newTrack 1 d0 0)
  have hs := congrArg Prod.fst h
  simp only at hs
  have hlen : (applyUpdates (newTrack 1 d0 0) c7Updates).samples.length = 7 := by
    rw [hs]
    norm_num [newTrack, c7Updates, stepSamples, sampleDue, SAMPLE_INTERVAL_S, WINDOW_S,
      mkSample, List.filter, d0]
  omega

/-- C9 (amended): when inference, decode or NMS throws — the only fallible
steps before the tracker-update section — the registry and id counter are
untouched and nothing is emitted for that frame; and whatever step faults,
the loop reschedules instead of terminating.  (A fault in rendering or in
the reporting callbacks, which run after the tracker update, leaves the
already-applied registry mutations in place: see
`c9_mutation_counterexample`.) -/
theorem c9_transient_failure_policy :
    (∀ (fault : Option FaultPoint) (reg : List Track) (nextId : ℕ) (dets : List Det) (now : ℝ),
      (fault = some FaultPoint.inference ∨ fault = some FaultPoint.decode ∨
        fault = some FaultPoint.nms) →
      runPass fault reg nextId dets now =
        { registry := reg, nextId := nextId, emittedCount := none, emittedStatus := none,
          reschedules := true }) ∧
    (∀ (fault : Option FaultPoint) (reg : List Track) (nextId : ℕ) (dets : List Det) (now : ℝ),
      (runPass fault reg nextId dets now).reschedules = true) := by
  constructor
  · intro fault reg nextId dets now hf
    unfold runPass
    rw [if_pos hf]
  · intro fault reg nextId dets now
    unfold runPass
    split
    · rfl
    · split
      · rfl
      · split <;> rfl

/-- C9 witness: an inference fault on a frame with one detection leaves
the empty registry empty and emits nothing. -/
theorem c9_transient_failure_policy_witness :
    runPass (some FaultPoint.inference) [] 1 [d0] 0 =
      { registry := [], nextId := 1, emittedCount := none, emittedStatus := none,
        reschedules := true } :=
  c9_transient_failure_policy.1 (some FaultPoint.inference) [] 1 [d0] 0 (Or.inl rfl)

/-- C9 counterexample: a fault in the rendering step — which the pass's
`catch` also swallows — does NOT leave the registry as it was before the
pass: the track created for the frame's detection is already there. -/
theorem c9_mutation_counterexample :
    (runPass (some FaultPoint.render) [] 1 [d0] 0).registry ≠ ([] : List Track) := by
  unfold runPass
  rw [if_neg (by simp)]
  rw [if_pos (Or.inl rfl)]
  simp [processFrame_fresh]

/-- A track whose last update is 1.6s old at the scenario timestamp:
young enough to survive expiry, too stale to be matched. -/
noncomputable def trStale : Track :=
  { id := 1, lastBox := ⟨0, 0, 0, 0⟩, lastCenter := (0, 0), lastUpdateTime := 0.4,
    lastSampleTime := some 0.4, samples := [], status := Status.idle }

theorem processFrame_single_stale (tr : Track) (d : Det) (n : ℕ) (now : ℝ)
    (hexp : ¬ 2.0 < now - tr.lastUpdateTime) (hrec : 1.5 < now - tr.lastUpdateTime)
    (hne : ¬ tr.id = n) :
    processFrame [tr] n [d] now =
      { registry := [tr, updateTrack (newTrack n d now) d now], nextId := n + 1,
        ids := [n] } := by
  unfold processFrame expire greedyAssign matchOne
  simp [hexp, hrec, matchStep, createAll, updateAll, newTrack, hne]

/-- C10: a track that survives expiry but is assigned no detection this
frame is still present, bit-for-bit unchanged, in the registry after the
pass. -/
theorem c10_unmatched_survivor_unchanged (reg : List Track) (n : ℕ) (dets : List Det)
    (now : ℝ) (tr : Track) (hmem : tr ∈ expire reg now)
    (hid : tr.id ∉ (processFrame reg n dets now).ids) :
    tr ∈ (processFrame reg n dets now).registry := by
  unfold processFrame at hid ⊢
  simp only at hid ⊢
  refine updateAll_mem_untouched now _ _ tr (List.mem_append_left _ hmem) ?_
  intro pr hpr
  rcases pr with ⟨a, b⟩
  have hb := (List.of_mem_zip hpr).2
  intro he
  exact hid (he ▸ hb)

/-- C10 witness: a surviving-but-stale track (1.6s old: inside the 2.0s
expiry window, outside the 1.5s matching window) is untouched by a pass
whose only detection spawns a fresh track. -/
theorem c10_unmatched_survivor_unchanged_witness :
    trStale ∈ (processFrame [trStale] 5 [d0] 2).registry := by
  refine c10_unmatched_survivor_unchanged [trStale] 5 [d0] 2 trStale ?_ ?_
  · rw [expire]
    refine List.mem_filter.mpr ⟨List.mem_cons_self _ _, ?_⟩
    norm_num [trStale]
  · rw [processFrame_single_stale trStale d0 5 2 (by norm_num [trStale])
      (by norm_num [trStale]) (by norm_num [trStale])]
    simp [trStale]

theorem hypot_zero : hypot 0 0 = 0 := by
  unfold hypot
  norm_num

noncomputable def trA : Track :=
  { id := 1, lastBox := ⟨0, 0, 0, 0⟩, lastCenter := (0, 0), lastUpdateTime := 0,
    lastSampleTime := some 0, samples := [{ t := 0 }], status := Status.idle }

noncomputable def trB : Track :=
  { id := 1, lastBox := ⟨0, 0, 0, 0⟩, lastCenter := (0, 0), lastUpdateTime := 1.4,
    lastSampleTime := some 1.4, samples := [{ t := 0 }, { t := 1.4 }], status := Status.idle }

noncomputable def trC : Track :=
  { id := 1, lastBox := ⟨0, 0, 0, 0⟩, lastCenter := (0, 0), lastUpdateTime := 2.8,
    lastSampleTime := some 2.8, samples := [{ t := 0 }, { t := 1.4 }, { t := 2.8 }],
    status := Status.idle }

noncomputable def trD : Track :=
  { id := 1, lastBox := ⟨0, 0, 0, 0⟩, lastCenter := (0, 0), lastUpdateTime := 3.05,
    lastSampleTime := some 2.8, samples := [{ t := 0 }, { t := 1.4 }, { t := 2.8 }],
    status := Status.idle }

theorem evalA : updateTrack (newTrack 1 d0 0) d0 0 = trA := by
  unfold updateTrack newTrack d0 trA
  norm_num [sampleDue, mkSample, WINDOW_S, classify, List.filter]

theorem evalB : updateTrack trA d0 1.4 = trB := by
  unfold updateTrack trA d0 trB
  norm_num [sampleDue, SAMPLE_INTERVAL_S, mkSample, WINDOW_S, classify, List.filter,
    consecPairs, motionStep, addDist]

theorem evalC : updateTrack trB d0 2.8 = trC := by
  unfold updateTrack trB d0 trC
  norm_num [sampleDue, SAMPLE_INTERVAL_S, mkSample, WINDOW_S, classify, List.filter,
    consecPairs, motionStep, addDist]

theorem evalD : updateTrack trC d0 3.05 = trD := by
  unfold updateTrack trC d0 trD
  norm_num [sampleDue, SAMPLE_INTERVAL_S, mkSample, WINDOW_S, classify, List.filter,
    consecPairs, motionStep, addDist]

theorem distGateA : distTo d0 trA < gate trA := by
  unfold distTo gate trA d0
  norm_num [hypot_zero, max_def]

theorem distGateB : distTo d0 trB < gate trB := by
  unfold distTo gate trB d0
  norm_num [hypot_zero, max_def]

theorem distGateC : distTo d0 trC < gate trC := by
  unfold distTo gate trC d0
  norm_num [hypot_zero, max_def]

noncomputable def c6State : FrameOut :=
  let p1 := processFrame [] 1 [d0] 0
  let p2 := processFrame p1.registry p1.nextId [d0] 1.4
  let p3 := processFrame p2.registry p2.nextId [d0] 2.8
  processFrame p3.registry p3.nextId [d0] 3.05

theorem c6State_eval : c6State = { registry := [trD], nextId := 2, ids := [1] } := by
  have h1 : processFrame [] 1 [d0] 0 = { registry := [trA], nextId := 2, ids := [1] } := by
    rw [processFrame_fresh, evalA]
  have h2 : processFrame [trA] 2 [d0] 1.4 = { registry := [trB], nextId := 2, ids := [1] } := by
    rw [processFrame_single trA d0 2 1.4 (by norm_num [trA]) (by norm_num [trA]) distGateA]
    rw [evalB]
    simp [trA]
  have h3 : processFrame [trB] 2 [d0] 2.8 = { registry := [trC], nextId := 2, ids := [1] } := by
    rw [processFrame_single trB d0 2 2.8 (by norm_num [trB]) (by norm_num [trB]) distGateB]
    rw [evalC]
    simp [trB]
  have h4 : processFrame [trC] 2 [d0] 3.05 = { registry := [trD], nextId := 2, ids := [1] } := by
    rw [processFrame_single trC d0 2 3.05 (by norm_num [trC]) (by norm_num [trC]) distGateC]
    rw [evalD]
    simp [trC]
  unfold c6State
  simp only [h1, h2, h3, h4]

/-- C6 counterexample: after four passes at timestamps 0, 1.4, 2.8 and
3.05 (single stationary detection each), the surviving track still holds
the sample taken at `t = 0`, which is older than the current video
timestamp 3.05 minus the 3.0s retention window — eviction runs only when
a new sample is recorded, and none was due at 3.05. -/
theorem c6_window_counterexample :
    ¬ (∀ tr ∈ c6State.registry, ∀ s ∈ tr.samples, (3.05 : ℝ) - WINDOW_S ≤ s.t) := by
  intro h
  have hmem : trD ∈ c6State.registry := by
    rw [c6State_eval]
    exact List.mem_cons_self _ _
  have hs : ({ t := 0 } : TrackSample) ∈ trD.samples := by
    simp [trD]
  have := h trD hmem _ hs
  norm_num [WINDOW_S] at this

end Pose
